import Mathlib

/-!
Verification of the Reversi (Othello) engine in `src/main.rs`.

The board model (`Piece`, `Board`, `valid_moves`, `is_valid_move`,
`apply_move`, `count`, `is_game_over`, `evaluate`) and the bounded
adversarial search (`minimax` with alpha-beta pruning and the iterative
deepening driver `get_best_move`) are embedded shallowly: the Rust
`[[Option<Piece>; 8]; 8]` grid becomes a function `Fin 8 → Fin 8 → Option Piece`,
`i32` scores become `Int` (all score arithmetic stays far inside the i32
range, so no wrap-around can occur in the source), and the only effectful
ingredient — polling the wall clock via `start.elapsed() >= time_limit` —
is modelled by a pure boolean `timeout` flag giving the poll's outcome
(the regimes the properties below speak about: the deadline is never
reached, or it had already expired when the search began).
-/

namespace Reversi

/-- The two contestants (`enum Piece` in the source). -/
inductive Piece : Type where
  | Black : Piece
  | White : Piece
deriving DecidableEq, Repr

/-- `Piece::opponent`. -/
def Piece.opponent : Piece → Piece
  | Piece.Black => Piece.White
  | Piece.White => Piece.Black

/-- The 8×8 grid of cells (`struct Board { cells: [[Option<Piece>; 8]; 8] }`). -/
structure Board : Type where
  cells : Fin 8 → Fin 8 → Option Piece

/-- `Board::new`: the canonical starting configuration. -/
def Board.new : Board :=
  ⟨fun r c =>
    if r = 3 ∧ c = 3 then some Piece.White
    else if r = 3 ∧ c = 4 then some Piece.Black
    else if r = 4 ∧ c = 3 then some Piece.Black
    else if r = 4 ∧ c = 4 then some Piece.White
    else none⟩

/-- `Board::in_bounds`. -/
abbrev in_bounds (row col : Int) : Prop :=
  0 ≤ row ∧ row < 8 ∧ 0 ≤ col ∧ col < 8

/-- Reading a cell addressed by `i32` coordinates (the source only reads
`self.cells[r as usize][c as usize]` after an `in_bounds` check,
so out-of-bounds reads never happen; they are mapped to `none`). -/
def Board.get (b : Board) (row col : Int) : Option Piece :=
  if h : in_bounds row col then
    b.cells ⟨row.toNat, by obtain ⟨h1, h2, h3, h4⟩ := h; omega⟩
      ⟨col.toNat, by obtain ⟨h1, h2, h3, h4⟩ := h; omega⟩
  else none

/-- The 8 compass directions, in source order. -/
def directions : List (Int × Int) :=
  [(-1, -1), (-1, 0), (-1, 1), (0, -1), (0, 1), (1, -1), (1, 0), (1, 1)]

/-- The scan along one direction inside `is_valid_move`: starting at `(r, c)`
and stepping by `(dr, dc)`, walk over a run of opponent discs; the direction
certifies the move as soon as a friendly disc is met after at least one
opponent disc.  The source's `while Board::in_bounds(r, c)` loop runs at most
7 times (each step moves one of the coordinates monotonically towards the
edge), so a fuel of 8 is an exact model of the loop. -/
def scanValid (b : Board) (piece : Piece) (dr dc : Int) :
    Int → Int → Bool → Nat → Bool
  | _, _, _, 0 => false
  | r, c, found, n + 1 =>
    if in_bounds r c then
      match b.get r c with
      | some p =>
        if p = piece.opponent then
          scanValid b piece dr dc (r + dr) (c + dc) true n
        else if p = piece then
          (if found then true else false)
        else false
      | none => false
    else false

/-- `Board::is_valid_move`. -/
def Board.is_valid_move (b : Board) (piece : Piece) (row col : Fin 8) : Bool :=
  if (b.cells row col).isSome then false
  else
    directions.any fun d =>
      scanValid b piece d.1 d.2 ((row.val : Int) + d.1) ((col.val : Int) + d.2) false 8

/-- All 64 coordinates in the row-major order of the source's
`for row in 0..8 { for col in 0..8 { ... } }` loops. -/
def allCoords : List (Fin 8 × Fin 8) :=
  (List.finRange 8).flatMap fun r => (List.finRange 8).map fun c => (r, c)

/-- `Board::valid_moves`: all empty cells where the move is legal, in
row-major generation order. -/
def Board.valid_moves (b : Board) (piece : Piece) : List (Fin 8 × Fin 8) :=
  allCoords.filter fun m => (b.cells m.1 m.2).isNone && b.is_valid_move piece m.1 m.2

/-- Writing one cell. -/
def Board.setCell (b : Board) (row col : Fin 8) (v : Option Piece) : Board :=
  ⟨fun i j => if i = row ∧ j = col then v else b.cells i j⟩

/-- The scan along one direction inside `apply_move`: collect the coordinates
of the opponent run (`pieces_to_flip`); on meeting a friendly disc return the
collected run (flipping an empty run flips nothing, exactly as in the source),
on meeting an empty cell or the edge return nothing.  Fuel 8 models the
bounded `while` loop exactly, as in `scanValid`. -/
def scanFlips (b : Board) (piece : Piece) (dr dc : Int) :
    Int → Int → List (Fin 8 × Fin 8) → Nat → List (Fin 8 × Fin 8)
  | _, _, _, 0 => []
  | r, c, acc, n + 1 =>
    if h : in_bounds r c then
      match b.get r c with
      | some p =>
        if p = piece.opponent then
          scanFlips b piece dr dc (r + dr) (c + dc)
            (acc ++ [(⟨r.toNat, by obtain ⟨h1, h2, h3, h4⟩ := h; omega⟩,
                      ⟨c.toNat, by obtain ⟨h1, h2, h3, h4⟩ := h; omega⟩)]) n
        else if p = piece then acc
        else []
      | none => []
    else []

/-- Flip every collected coordinate to the mover's side
(the `for (fr, fc) in pieces_to_flip` loop). -/
def flipAll (b : Board) (piece : Piece) (l : List (Fin 8 × Fin 8)) : Board :=
  l.foldl (fun bb m => bb.setCell m.1 m.2 (some piece)) b

/-- `Board::apply_move`: returns the source's success boolean together with
the board after the mutation (the Rust method mutates `self` in place;
the embedding returns the updated board).  On an illegal move it returns
`false` and the unchanged board; on success it places the disc and then,
direction by direction, flips every bounded opponent run. -/
def Board.apply_move (b : Board) (piece : Piece) (row col : Fin 8) :
    Bool × Board :=
  if b.is_valid_move piece row col = false then (false, b)
  else
    let b1 := b.setCell row col (some piece)
    let b2 := directions.foldl
      (fun bb d =>
        flipAll bb piece
          (scanFlips bb piece d.1 d.2 ((row.val : Int) + d.1) ((col.val : Int) + d.2) [] 8))
      b1
    (true, b2)

/-- `Board::count`: the number of discs owned by `piece`
(the source flattens the rows in row-major order and filters). -/
def Board.count (b : Board) (piece : Piece) : Nat :=
  (allCoords.filter fun m => b.cells m.1 m.2 = some piece).length

/-- `Board::is_game_over`. -/
def Board.is_game_over (b : Board) : Bool :=
  (b.valid_moves Piece.Black).isEmpty && (b.valid_moves Piece.White).isEmpty

/-- Whether a coordinate is one of the four corner cells
(the repeated `(row == 0 && col == 0) || ...` test in `evaluate`). -/
def isCorner (m : Fin 8 × Fin 8) : Prop :=
  (m.1 = 0 ∧ m.2 = 0) ∨ (m.1 = 0 ∧ m.2 = 7) ∨ (m.1 = 7 ∧ m.2 = 0) ∨ (m.1 = 7 ∧ m.2 = 7)

instance (m : Fin 8 × Fin 8) : Decidable (isCorner m) := by
  unfold isCorner; infer_instance

/-- The contribution of a single cell to `evaluate`'s accumulated score:
`+10` for an own disc, `-10` for an opponent disc, a further `±25` on the
four corners, `0` for an empty cell. -/
def cellScore (piece : Piece) (m : Fin 8 × Fin 8) (cell : Option Piece) : Int :=
  match cell with
  | some p =>
    if p = piece then 10 + (if isCorner m then 25 else 0)
    else if p = piece.opponent then -(10 + (if isCorner m then 25 else 0))
    else 0
  | none => 0

/-- `Board::evaluate`: the accumulation loop over all 64 cells, written as
the sum of the per-cell contributions in row-major order. -/
def Board.evaluate (b : Board) (piece : Piece) : Int :=
  (allCoords.map fun m => cellScore piece m (b.cells m.1 m.2)).sum

/-! ### The adversarial search -/

/-- `i32::MIN`. -/
def i32min : Int := -2147483648

/-- `i32::MAX`. -/
def i32max : Int := 2147483647

/-- The side to move at a layer of the search:
`if maximizing { piece } else { piece.opponent() }` in the source. -/
def mover (maximizing : Bool) (piece : Piece) : Piece :=
  if maximizing then piece else piece.opponent

/-- Termination measure for `minimax`: the pass branch keeps the depth but
moves from a side with no legal moves to one with at least one legal move. -/
def measM (b : Board) (depth : Nat) (maximizing : Bool) (piece : Piece) : Nat :=
  130 * depth + (if b.valid_moves (mover maximizing piece) = [] then 1 else 0)

/-- Termination measure for the per-move folds of the search. -/
def measL (depth : Nat) (moves : List (Fin 8 × Fin 8)) : Nat :=
  130 * depth + 2 + moves.length

mutual

/-- `minimax`: depth-bounded, time-bounded alpha-beta search.  The wall-clock
poll `start.elapsed() >= time_limit` is modelled by the pure flag `timeout`. -/
def minimax (b : Board) (depth : Nat) (alpha beta : Int) (maximizing : Bool)
    (piece : Piece) (timeout : Bool) : Int :=
  if hcut : depth = 0 ∨ b.is_game_over = true ∨ timeout = true then
    b.evaluate piece
  else
    if hpass : b.valid_moves (mover maximizing piece) = [] then
      minimax b depth alpha beta (!maximizing) piece timeout
    else
      if maximizing = true then
        abMax b (b.valid_moves piece) (depth - 1) i32min alpha beta piece timeout
      else
        abMin b (b.valid_moves piece.opponent) (depth - 1) i32max alpha beta piece timeout
termination_by measM b depth maximizing piece
decreasing_by
  · have hgo : b.is_game_over = false := by
      cases hbg : b.is_game_over
      · rfl
      · exact absurd (Or.inr (Or.inl hbg)) hcut
    have hflip : b.valid_moves (mover (!maximizing) piece) ≠ [] := by
      have h1 : mover (!maximizing) piece = (mover maximizing piece).opponent := by
        cases maximizing <;> cases piece <;> simp [mover, Piece.opponent]
      rw [h1]
      revert hgo hpass
      cases mover maximizing piece <;>
        simp_all [Board.is_game_over, List.isEmpty_iff, Piece.opponent]
    simp only [measM, if_pos hpass, if_neg hflip]
    omega
  · have hd : depth ≠ 0 := fun h => hcut (Or.inl h)
    have hlen : (b.valid_moves piece).length ≤ 64 := by
      unfold Board.valid_moves
      exact le_trans (List.length_filter_le _ _) (by decide)
    simp only [measM, measL]
    split <;> omega
  · have hd : depth ≠ 0 := fun h => hcut (Or.inl h)
    have hlen : (b.valid_moves piece.opponent).length ≤ 64 := by
      unfold Board.valid_moves
      exact le_trans (List.length_filter_le _ _) (by decide)
    simp only [measM, measL]
    split <;> omega

/-- The maximizing-layer loop of `minimax`: fold over the legal moves keeping
the running maximum, raising `alpha`, and stopping as soon as `beta <= alpha`. -/
def abMax (b : Board) (moves : List (Fin 8 × Fin 8)) (depth : Nat)
    (maxEval alpha beta : Int) (piece : Piece) (timeout : Bool) : Int :=
  match moves with
  | [] => maxEval
  | m :: rest =>
    let nb := (b.apply_move piece m.1 m.2).2
    let ev := minimax nb depth alpha beta false piece timeout
    let maxEval2 := max maxEval ev
    let alpha2 := max alpha ev
    if beta ≤ alpha2 then maxEval2
    else abMax b rest depth maxEval2 alpha2 beta piece timeout
termination_by measL depth moves
decreasing_by
  · simp only [measM, measL, List.length_cons]
    split <;> omega
  · simp only [measL, List.length_cons]
    omega

/-- The minimizing-layer loop of `minimax`: fold over the legal moves keeping
the running minimum, lowering `beta`, and stopping as soon as `beta <= alpha`. -/
def abMin (b : Board) (moves : List (Fin 8 × Fin 8)) (depth : Nat)
    (minEval alpha beta : Int) (piece : Piece) (timeout : Bool) : Int :=
  match moves with
  | [] => minEval
  | m :: rest =>
    let nb := (b.apply_move piece.opponent m.1 m.2).2
    let ev := minimax nb depth alpha beta true piece timeout
    let minEval2 := min minEval ev
    let beta2 := min beta ev
    if beta2 ≤ alpha then minEval2
    else abMin b rest depth minEval2 alpha beta2 piece timeout
termination_by measL depth moves
decreasing_by
  · simp only [measM, measL, List.length_cons]
    split <;> omega
  · simp only [measL, List.length_cons]
    omega

end

mutual

/-- Modelled from the spec: the *unpruned* full minimax of §4.2 and §8
("the move chosen by the pruned search equals the move chosen by an unpruned
full minimax"), i.e. `minimax` with the same cutoffs, pass rule, move order
and fold structure but no `alpha`/`beta` window, no pruning break, and no
time limit ("assuming the time limit is never reached"). -/
def minimaxFull (b : Board) (depth : Nat) (maximizing : Bool) (piece : Piece) : Int :=
  if hcut : depth = 0 ∨ b.is_game_over = true then
    b.evaluate piece
  else
    if hpass : b.valid_moves (mover maximizing piece) = [] then
      minimaxFull b depth (!maximizing) piece
    else
      if maximizing = true then
        fullMax b (b.valid_moves piece) (depth - 1) i32min piece
      else
        fullMin b (b.valid_moves piece.opponent) (depth - 1) i32max piece
termination_by measM b depth maximizing piece
decreasing_by
  · have hgo : b.is_game_over = false := by
      cases hbg : b.is_game_over
      · rfl
      · exact absurd (Or.inr hbg) hcut
    have hflip : b.valid_moves (mover (!maximizing) piece) ≠ [] := by
      have h1 : mover (!maximizing) piece = (mover maximizing piece).opponent := by
        cases maximizing <;> cases piece <;> simp [mover, Piece.opponent]
      rw [h1]
      revert hgo hpass
      cases mover maximizing piece <;>
        simp_all [Board.is_game_over, List.isEmpty_iff, Piece.opponent]
    simp only [measM, if_pos hpass, if_neg hflip]
    omega
  · have hd : depth ≠ 0 := fun h => hcut (Or.inl h)
    have hlen : (b.valid_moves piece).length ≤ 64 := by
      unfold Board.valid_moves
      exact le_trans (List.length_filter_le _ _) (by decide)
    simp only [measM, measL]
    split <;> omega
  · have hd : depth ≠ 0 := fun h => hcut (Or.inl h)
    have hlen : (b.valid_moves piece.opponent).length ≤ 64 := by
      unfold Board.valid_moves
      exact le_trans (List.length_filter_le _ _) (by decide)
    simp only [measM, measL]
    split <;> omega

/-- Modelled from the spec: the maximizing fold of the unpruned minimax —
the running maximum over every legal move, with no pruning break. -/
def fullMax (b : Board) (moves : List (Fin 8 × Fin 8)) (depth : Nat)
    (acc : Int) (piece : Piece) : Int :=
  match moves with
  | [] => acc
  | m :: rest =>
    let nb := (b.apply_move piece m.1 m.2).2
    let v := minimaxFull nb depth false piece
    fullMax b rest depth (max acc v) piece
termination_by measL depth moves
decreasing_by
  · simp only [measM, measL, List.length_cons]
    split <;> omega
  · simp only [measL, List.length_cons]
    omega

/-- Modelled from the spec: the minimizing fold of the unpruned minimax. -/
def fullMin (b : Board) (moves : List (Fin 8 × Fin 8)) (depth : Nat)
    (acc : Int) (piece : Piece) : Int :=
  match moves with
  | [] => acc
  | m :: rest =>
    let nb := (b.apply_move piece.opponent m.1 m.2).2
    let v := minimaxFull nb depth true piece
    fullMin b rest depth (min acc v) piece
termination_by measL depth moves
decreasing_by
  · simp only [measM, measL, List.length_cons]
    split <;> omega
  · simp only [measL, List.length_cons]
    omega

end

/-- The inner loop of `get_best_move`: scan the root moves at one target
`depth`, replacing the incumbent only on a strictly greater score
(`if score > best_score`), and break out when the deadline poll fires
(`if start.elapsed() >= time_limit { break }` — the poll outcome is the
pure flag `timeout`, checked after each root evaluation as in the source). -/
def scanMoves (b : Board) (piece : Piece) (timeout : Bool) (depth : Nat) :
    List (Fin 8 × Fin 8) → Option (Fin 8 × Fin 8) × Int → Option (Fin 8 × Fin 8) × Int
  | [], st => st
  | m :: rest, st =>
    let nb := (b.apply_move piece m.1 m.2).2
    let score := minimax nb (depth - 1) i32min i32max false piece timeout
    let st2 := if st.2 < score then (some m, score) else st
    if timeout = true then st2
    else scanMoves b piece timeout depth rest st2

/-- The outer iterative-deepening loop of `get_best_move`:
`for depth in 1..=max_depth`, breaking when the deadline poll fires. -/
def scanDepths (b : Board) (piece : Piece) (timeout : Bool)
    (moves : List (Fin 8 × Fin 8)) :
    List Nat → Option (Fin 8 × Fin 8) × Int → Option (Fin 8 × Fin 8) × Int
  | [], st => st
  | d :: rest, st =>
    let st2 := scanMoves b piece timeout d moves st
    if timeout = true then st2
    else scanDepths b piece timeout moves rest st2

/-- `get_best_move`: iterative deepening driven by `minimax`, returning
`None` exactly when the side to move has no legal move. -/
def get_best_move (b : Board) (piece : Piece) (timeout : Bool)
    (max_depth : Nat) : Option (Fin 8 × Fin 8) :=
  let moves := b.valid_moves piece
  if moves = [] then none
  else (scanDepths b piece timeout moves (List.range' 1 max_depth) (none, i32min)).1

/-- Modelled from the spec: the same iterative-deepening driver fed by the
unpruned `minimaxFull` instead of the pruned `minimax` (§8, alpha-beta
equivalence), with the time limit never reached. -/
def scanMovesFull (b : Board) (piece : Piece) (depth : Nat) :
    List (Fin 8 × Fin 8) → Option (Fin 8 × Fin 8) × Int → Option (Fin 8 × Fin 8) × Int
  | [], st => st
  | m :: rest, st =>
    let nb := (b.apply_move piece m.1 m.2).2
    let score := minimaxFull nb (depth - 1) false piece
    let st2 := if st.2 < score then (some m, score) else st
    scanMovesFull b piece depth rest st2

/-- Modelled from the spec: the outer deepening loop of the unpruned driver. -/
def scanDepthsFull (b : Board) (piece : Piece) (moves : List (Fin 8 × Fin 8)) :
    List Nat → Option (Fin 8 × Fin 8) × Int → Option (Fin 8 × Fin 8) × Int
  | [], st => st
  | d :: rest, st =>
    scanDepthsFull b piece moves rest (scanMovesFull b piece d moves st)

/-- Modelled from the spec: `get_best_move` built on the unpruned minimax. -/
def get_best_move_full (b : Board) (piece : Piece) (max_depth : Nat) :
    Option (Fin 8 × Fin 8) :=
  let moves := b.valid_moves piece
  if moves = [] then none
  else (scanDepthsFull b piece moves (List.range' 1 max_depth) (none, i32min)).1

/-- The number of occupied cells (used to state flip conservation). -/
def totalOcc (b : Board) : Nat :=
  (allCoords.filter fun m => (b.cells m.1 m.2).isSome).length

/-- A board with White in the corner (0,0) and Black beside it at (0,1):
Black has no legal move (the only White disc sits on the edge so no
Black-anchored run exists), while White can play (0,2).  Used as the
concrete pass scenario. -/
def passBoard : Board :=
  ⟨fun r c =>
    if r = 0 ∧ c = 0 then some Piece.White
    else if r = 0 ∧ c = 1 then some Piece.Black
    else none⟩

/-! ### Basic facts about the board model -/

theorem Piece.opponent_opponent (p : Piece) : p.opponent.opponent = p := by
  cases p <;> rfl

theorem Piece.opponent_ne (p : Piece) : p.opponent ≠ p := by
  cases p <;> simp [Piece.opponent]

theorem mover_true (p : Piece) : mover true p = p := rfl

theorem mover_false (p : Piece) : mover false p = p.opponent := rfl

theorem mover_not (mx : Bool) (p : Piece) :
    mover (!mx) p = (mover mx p).opponent := by
  cases mx <;> simp [mover, Piece.opponent_opponent]

theorem allCoords_length : allCoords.length = 64 := by decide

theorem valid_moves_length (b : Board) (p : Piece) :
    (b.valid_moves p).length ≤ 64 := by
  unfold Board.valid_moves
  exact allCoords_length ▸ List.length_filter_le _ _

/-- A side with no legal move passes to a side that has one, as long as the
game is not over: this is the fact that makes the same-depth pass recursion
in `minimax` well-founded. -/
theorem pass_flip (b : Board) (q : Piece) (hgo : b.is_game_over = false)
    (hq : b.valid_moves q = []) : b.valid_moves q.opponent ≠ [] := by
  cases q <;> simp_all [Board.is_game_over, Piece.opponent, List.isEmpty_iff]

theorem mem_allCoords (m : Fin 8 × Fin 8) : m ∈ allCoords := by
  revert m; decide

theorem allCoords_pairwise :
    List.Pairwise (fun x y : Fin 8 × Fin 8 => x.1 < y.1 ∨ (x.1 = y.1 ∧ x.2 < y.2))
      allCoords := by
  decide

theorem sum_map_neg {α : Type} (l : List α) (f : α → Int) :
    (l.map fun a => -(f a)).sum = -((l.map f).sum) := by
  induction l with
  | nil => simp
  | cons a t ih => simp [ih]; ring

theorem cellScore_neg (p : Piece) (m : Fin 8 × Fin 8) (cell : Option Piece) :
    cellScore p.opponent m cell = -(cellScore p m cell) := by
  cases cell with
  | none => simp [cellScore]
  | some q => cases p <;> cases q <;> simp [cellScore, Piece.opponent]

/-- C6: the static heuristic is antisymmetric under swapping the side. -/
theorem evaluate_antisymm (b : Board) (p : Piece) :
    b.evaluate p = -(b.evaluate p.opponent) := by
  unfold Board.evaluate
  rw [← sum_map_neg]
  have h : (fun m : Fin 8 × Fin 8 => cellScore p m (b.cells m.1 m.2)) =
      fun m => -(cellScore p.opponent m (b.cells m.1 m.2)) := by
    funext m
    rw [cellScore_neg, neg_neg]
  rw [h]

/-- C5: the game is over exactly when neither side has a legal move. -/
theorem is_game_over_iff (b : Board) :
    b.is_game_over = true ↔
      b.valid_moves Piece.Black = [] ∧ b.valid_moves Piece.White = [] := by
  simp [Board.is_game_over, List.isEmpty_iff]

/-- C2: an illegal move is rejected with `false` and flips nothing:
every cell of the board is left unchanged. -/
theorem apply_move_illegal (b : Board) (p : Piece) (r c : Fin 8)
    (h : b.is_valid_move p r c = false) :
    (b.apply_move p r c).1 = false ∧
      ∀ i j : Fin 8, (b.apply_move p r c).2.cells i j = b.cells i j := by
  simp [Board.apply_move, h]

theorem apply_move_illegal_closed :
    Board.new.is_valid_move Piece.Black 0 0 = false ∧
      ((Board.new.apply_move Piece.Black 0 0).1 = false ∧
        ∀ i j : Fin 8,
          (Board.new.apply_move Piece.Black 0 0).2.cells i j = Board.new.cells i j) :=
  ⟨by decide, apply_move_illegal Board.new Piece.Black 0 0 (by decide)⟩

/-- C3: `valid_moves` lists exactly the empty cells passing `is_valid_move`,
in strictly increasing row-major order. -/
theorem valid_moves_spec (b : Board) (p : Piece) :
    (∀ r c : Fin 8,
      (r, c) ∈ b.valid_moves p ↔ b.cells r c = none ∧ b.is_valid_move p r c = true)
    ∧ List.Pairwise (fun x y : Fin 8 × Fin 8 => x.1 < y.1 ∨ (x.1 = y.1 ∧ x.2 < y.2))
        (b.valid_moves p) := by
  constructor
  · intro r c
    simp [Board.valid_moves, List.mem_filter, mem_allCoords,
      Option.isNone_iff_eq_none]
  · exact allCoords_pairwise.sublist (List.filter_sublist _)

/-- C7: from the canonical start, Black playing (2,3) is legal, places at
(2,3), flips exactly the disc at (3,3) from White to Black, leaves every
other cell unchanged, and yields Black = 4, White = 1. -/
theorem start_black_d3 :
    Board.new.is_valid_move Piece.Black 2 3 = true ∧
    (Board.new.apply_move Piece.Black 2 3).1 = true ∧
    Board.new.cells 2 3 = none ∧
    Board.new.cells 3 3 = some Piece.White ∧
    (Board.new.apply_move Piece.Black 2 3).2.cells 2 3 = some Piece.Black ∧
    (Board.new.apply_move Piece.Black 2 3).2.cells 3 3 = some Piece.Black ∧
    (∀ i j : Fin 8, ¬(i = 2 ∧ j = 3) → ¬(i = 3 ∧ j = 3) →
      (Board.new.apply_move Piece.Black 2 3).2.cells i j = Board.new.cells i j) ∧
    (Board.new.apply_move Piece.Black 2 3).2.count Piece.Black = 4 ∧
    (Board.new.apply_move Piece.Black 2 3).2.count Piece.White = 1 := by
  decide

/-! ### Flip conservation (C4) -/

theorem allCoords_nodup : allCoords.Nodup := by decide

theorem setCell_cells (b : Board) (r c : Fin 8) (v : Option Piece) (i j : Fin 8) :
    (b.setCell r c v).cells i j = if i = r ∧ j = c then v else b.cells i j := rfl

theorem get_of_in_bounds (b : Board) (r c : Int) (h : in_bounds r c)
    (hr : r.toNat < 8) (hc : c.toNat < 8) :
    b.get r c = b.cells ⟨r.toNat, hr⟩ ⟨c.toNat, hc⟩ := by
  rw [Board.get, dif_pos h]

theorem count_split (b : Board) :
    b.count Piece.Black + b.count Piece.White = totalOcc b := by
  unfold Board.count totalOcc
  induction allCoords with
  | nil => simp
  | cons m t ih =>
    rcases hc : b.cells m.1 m.2 with _ | q
    · simp [List.filter_cons, hc, ih]
    · cases q <;> simp [List.filter_cons, hc] <;> omega

theorem length_filter_update (a : Fin 8 × Fin 8) (f g : (Fin 8 × Fin 8) → Bool) :
    ∀ l : List (Fin 8 × Fin 8), l.Nodup → a ∈ l → f a = false → g a = true →
      (∀ x ∈ l, x ≠ a → f x = g x) →
      (l.filter g).length = (l.filter f).length + 1 := by
  intro l
  induction l with
  | nil => intro _ h; cases h
  | cons x t ih =>
    intro hnd hmem hf hg hxeq
    rcases List.mem_cons.mp hmem with rfl | hmt
    · have hnin : a ∉ t := (List.nodup_cons.mp hnd).1
      have hft : t.filter f = t.filter g := by
        apply List.filter_congr
        intro y hy
        exact hxeq y (List.mem_cons_of_mem _ hy) (fun he => hnin (he ▸ hy))
      simp [List.filter_cons, hf, hg, hft]
    · have hxa : x ≠ a := by
        rintro rfl
        exact (List.nodup_cons.mp hnd).1 hmt
      have hfx : f x = g x := hxeq x (List.mem_cons_self _ _) hxa
      have ihr := ih (List.nodup_cons.mp hnd).2 hmt hf hg
        (fun y hy hya => hxeq y (List.mem_cons_of_mem _ hy) hya)
      by_cases hb : g x = true
      · simp [List.filter_cons, hb, hfx ▸ hb, ihr]
      · have hb' : g x = false := by simpa using hb
        simp [List.filter_cons, hb', hfx ▸ hb', ihr]

theorem totalOcc_setCell_occupied (b : Board) (r c : Fin 8) (p : Piece)
    (h : (b.cells r c).isSome = true) :
    totalOcc (b.setCell r c (some p)) = totalOcc b := by
  unfold totalOcc
  congr 1
  apply List.filter_congr
  intro m _
  rw [setCell_cells]
  by_cases hm : m.1 = r ∧ m.2 = c
  · rw [if_pos hm]
    rw [← hm.1, ← hm.2] at h
    simp [h]
  · rw [if_neg hm]

theorem totalOcc_setCell_empty (b : Board) (r c : Fin 8) (p : Piece)
    (h : b.cells r c = none) :
    totalOcc (b.setCell r c (some p)) = totalOcc b + 1 := by
  unfold totalOcc
  apply length_filter_update (r, c)
  · exact allCoords_nodup
  · exact mem_allCoords _
  · simp [h]
  · simp [setCell_cells]
  · intro x _ hx
    rw [setCell_cells]
    have : ¬(x.1 = r ∧ x.2 = c) := by
      rintro ⟨h1, h2⟩
      exact hx (Prod.ext h1 h2)
    rw [if_neg this]

theorem scanFlips_occupied (b : Board) (piece : Piece) (dr dc : Int) :
    ∀ (fuel : Nat) (r c : Int) (acc : List (Fin 8 × Fin 8)),
      (∀ x ∈ acc, (b.cells x.1 x.2).isSome = true) →
      ∀ x ∈ scanFlips b piece dr dc r c acc fuel, (b.cells x.1 x.2).isSome = true := by
  intro fuel
  induction fuel with
  | zero => intro r c acc _ x hx; simp [scanFlips] at hx
  | succ n ih =>
    intro r c acc hacc x hx
    rw [scanFlips] at hx
    by_cases h : in_bounds r c
    · rw [dif_pos h] at hx
      rcases hg : b.get r c with _ | p
      · rw [hg] at hx; simp at hx
      · rw [hg] at hx
        dsimp only at hx
        by_cases hopp : p = piece.opponent
        · rw [if_pos hopp] at hx
          refine ih _ _ _ ?_ x hx
          intro y hy
          rcases List.mem_append.mp hy with hy1 | hy2
          · exact hacc y hy1
          · have h8r : r.toNat < 8 := by obtain ⟨h1, h2, h3, h4⟩ := h; omega
            have h8c : c.toNat < 8 := by obtain ⟨h1, h2, h3, h4⟩ := h; omega
            rw [get_of_in_bounds b r c h h8r h8c] at hg
            rcases List.mem_singleton.mp hy2 with rfl
            simp [hg]
        · rw [if_neg hopp] at hx
          by_cases hpp : p = piece
          · rw [if_pos hpp] at hx
            exact hacc x hx
          · rw [if_neg hpp] at hx; cases hx
    · rw [dif_neg h] at hx; cases hx

theorem flipAll_cells_isSome (b : Board) (piece : Piece)
    (l : List (Fin 8 × Fin 8)) (i j : Fin 8)
    (h : (b.cells i j).isSome = true) :
    ((flipAll b piece l).cells i j).isSome = true := by
  induction l generalizing b with
  | nil => exact h
  | cons x t ih =>
    rw [flipAll, List.foldl_cons]
    refine ih _ ?_
    rw [setCell_cells]
    by_cases hm : i = x.1 ∧ j = x.2
    · rw [if_pos hm]; rfl
    · rw [if_neg hm]; exact h

theorem totalOcc_flipAll (b : Board) (piece : Piece) (l : List (Fin 8 × Fin 8))
    (h : ∀ x ∈ l, (b.cells x.1 x.2).isSome = true) :
    totalOcc (flipAll b piece l) = totalOcc b := by
  induction l generalizing b with
  | nil => rfl
  | cons x t ih =>
    rw [flipAll, List.foldl_cons]
    have hx := h x (List.mem_cons_self _ _)
    have h1 : totalOcc (b.setCell x.1 x.2 (some piece)) = totalOcc b :=
      totalOcc_setCell_occupied b x.1 x.2 piece hx
    rw [← h1]
    apply ih
    intro y hy
    rw [setCell_cells]
    by_cases hm : y.1 = x.1 ∧ y.2 = x.2
    · rw [if_pos hm]; rfl
    · rw [if_neg hm]
      exact h y (List.mem_cons_of_mem _ hy)

theorem totalOcc_foldDirs (piece : Piece) (row col : Fin 8) :
    ∀ (ds : List (Int × Int)) (bb : Board),
      totalOcc (ds.foldl
        (fun bb d => flipAll bb piece
          (scanFlips bb piece d.1 d.2 ((row.val : Int) + d.1) ((col.val : Int) + d.2) [] 8))
        bb) = totalOcc bb := by
  intro ds
  induction ds with
  | nil => intro bb; rfl
  | cons d t ih =>
    intro bb
    rw [List.foldl_cons, ih]
    apply totalOcc_flipAll
    apply scanFlips_occupied
    intro x hx
    cases hx

theorem valid_move_empty (b : Board) (p : Piece) (r c : Fin 8)
    (h : b.is_valid_move p r c = true) : b.cells r c = none := by
  unfold Board.is_valid_move at h
  cases hcell : b.cells r c with
  | none => rfl
  | some q => rw [hcell] at h; simp at h

/-- C4: a successful `apply_move` increases the total disc count by
exactly one (the placement), flips preserving occupancy. -/
theorem apply_move_count (b : Board) (p : Piece) (r c : Fin 8)
    (h : (b.apply_move p r c).1 = true) :
    (b.apply_move p r c).2.count Piece.Black + (b.apply_move p r c).2.count Piece.White
      = b.count Piece.Black + b.count Piece.White + 1 := by
  rw [count_split, count_split]
  cases hv : b.is_valid_move p r c with
  | false => rw [Board.apply_move, if_pos hv] at h; cases h
  | true =>
    have hne : ¬(b.is_valid_move p r c = false) := by simp [hv]
    rw [Board.apply_move, if_neg hne]
    simp only
    rw [totalOcc_foldDirs]
    rw [totalOcc_setCell_empty b r c p (valid_move_empty b p r c hv)]

theorem apply_move_count_closed :
    (Board.new.apply_move Piece.Black 2 3).1 = true ∧
      ((Board.new.apply_move Piece.Black 2 3).2.count Piece.Black
          + (Board.new.apply_move Piece.Black 2 3).2.count Piece.White
        = Board.new.count Piece.Black + Board.new.count Piece.White + 1) :=
  ⟨by decide, apply_move_count Board.new Piece.Black 2 3 (by decide)⟩

/-! ### Bounds on the evaluation and the search values -/

theorem cellScore_bound (p : Piece) (m : Fin 8 × Fin 8) (cell : Option Piece) :
    -35 ≤ cellScore p m cell ∧ cellScore p m cell ≤ 35 := by
  rcases cell with _ | q
  · simp only [cellScore]
    omega
  · simp only [cellScore]
    split_ifs <;> omega

theorem sum_bound (l : List (Fin 8 × Fin 8)) (f : (Fin 8 × Fin 8) → Int)
    (h : ∀ x ∈ l, -35 ≤ f x ∧ f x ≤ 35) :
    -(35 * (l.length : Int)) ≤ (l.map f).sum ∧ (l.map f).sum ≤ 35 * (l.length : Int) := by
  induction l with
  | nil => simp
  | cons a t ih =>
    have ha := h a (List.mem_cons_self _ _)
    have ht := ih fun x hx => h x (List.mem_cons_of_mem _ hx)
    simp only [List.map_cons, List.sum_cons, List.length_cons]
    push_cast
    omega

theorem evaluate_bound (b : Board) (p : Piece) :
    -2240 ≤ b.evaluate p ∧ b.evaluate p ≤ 2240 := by
  unfold Board.evaluate
  have h := sum_bound allCoords (fun m => cellScore p m (b.cells m.1 m.2))
    (fun x _ => cellScore_bound p x (b.cells x.1 x.2))
  rw [allCoords_length] at h
  norm_num at h
  exact h

theorem abMax_ge (b : Board) (d : Nat) (p : Piece) (t : Bool) :
    ∀ (ms : List (Fin 8 × Fin 8)) (g α β : Int), g ≤ abMax b ms d g α β p t := by
  intro ms
  induction ms with
  | nil => intro g α β; rw [abMax]
  | cons m rest ih =>
    intro g α β
    simp only [abMax]
    split
    · exact le_max_left _ _
    · exact le_trans (le_max_left _ _) (ih _ _ _)

theorem abMin_le (b : Board) (d : Nat) (p : Piece) (t : Bool) :
    ∀ (ms : List (Fin 8 × Fin 8)) (g α β : Int), abMin b ms d g α β p t ≤ g := by
  intro ms
  induction ms with
  | nil => intro g α β; rw [abMin]
  | cons m rest ih =>
    intro g α β
    simp only [abMin]
    split
    · exact min_le_left _ _
    · exact le_trans (ih _ _ _) (min_le_left _ _)

theorem fullMax_ge (b : Board) (d : Nat) (p : Piece) :
    ∀ (ms : List (Fin 8 × Fin 8)) (g : Int), g ≤ fullMax b ms d g p := by
  intro ms
  induction ms with
  | nil => intro g; rw [fullMax]
  | cons m rest ih =>
    intro g
    simp only [fullMax]
    exact le_trans (le_max_left _ _) (ih _)

theorem fullMin_le (b : Board) (d : Nat) (p : Piece) :
    ∀ (ms : List (Fin 8 × Fin 8)) (g : Int), fullMin b ms d g p ≤ g := by
  intro ms
  induction ms with
  | nil => intro g; rw [fullMin]
  | cons m rest ih =>
    intro g
    simp only [fullMin]
    exact le_trans (ih _) (min_le_left _ _)

theorem fullMax_max (b : Board) (d : Nat) (p : Piece) :
    ∀ (ms : List (Fin 8 × Fin 8)) (x y : Int),
      fullMax b ms d (max x y) p = max x (fullMax b ms d y p) := by
  intro ms
  induction ms with
  | nil => intro x y; rw [fullMax, fullMax]
  | cons m rest ih =>
    intro x y
    simp only [fullMax]
    rw [max_assoc, ih]

theorem fullMin_min (b : Board) (d : Nat) (p : Piece) :
    ∀ (ms : List (Fin 8 × Fin 8)) (x y : Int),
      fullMin b ms d (min x y) p = min x (fullMin b ms d y p) := by
  intro ms
  induction ms with
  | nil => intro x y; rw [fullMin, fullMin]
  | cons m rest ih =>
    intro x y
    simp only [fullMin]
    rw [min_assoc, ih]

/-- Every value produced by the pruned search lies within the range of the
static evaluation (so in particular strictly inside `(i32::MIN, i32::MAX)`):
the leaves are `evaluate` values and the folds only move the accumulators
towards values already in range once at least one move has been examined. -/
theorem searchBound : ∀ n : Nat,
    (∀ b d α β mx p t, measM b d mx p ≤ n →
      -2240 ≤ minimax b d α β mx p t ∧ minimax b d α β mx p t ≤ 2240)
    ∧ (∀ b ms d g α β p t, measL d ms ≤ n →
      (g ≤ 2240 → abMax b ms d g α β p t ≤ 2240)
      ∧ (-2240 ≤ g → -2240 ≤ abMax b ms d g α β p t)
      ∧ (ms ≠ [] → -2240 ≤ abMax b ms d g α β p t))
    ∧ (∀ b ms d g α β p t, measL d ms ≤ n →
      (-2240 ≤ g → -2240 ≤ abMin b ms d g α β p t)
      ∧ (g ≤ 2240 → abMin b ms d g α β p t ≤ 2240)
      ∧ (ms ≠ [] → abMin b ms d g α β p t ≤ 2240)) := by
  intro n
  induction n using Nat.strong_induction_on with
  | _ n ih =>
  refine ⟨?_, ?_, ?_⟩
  · intro b d α β mx p t hm
    rw [minimax]
    split
    · exact evaluate_bound b p
    · rename_i hcut
      split
      · rename_i hpass
        have hgo : b.is_game_over = false := by
          cases hbg : b.is_game_over
          · rfl
          · exact absurd (Or.inr (Or.inl hbg)) hcut
        have hflip := pass_flip b (mover mx p) hgo hpass
        rw [← mover_not] at hflip
        have hlt : measM b d (!mx) p < measM b d mx p := by
          simp only [measM, if_pos hpass, if_neg hflip]
          omega
        exact (ih (measM b d (!mx) p) (lt_of_lt_of_le hlt hm)).1 b d α β (!mx) p t le_rfl
      · rename_i hpass
        have hd : d ≠ 0 := fun hh => hcut (Or.inl hh)
        split
        · rename_i hmx
          have hlen := valid_moves_length b p
          have hlt : measL (d - 1) (b.valid_moves p) < measM b d mx p := by
            simp only [measM, measL]
            split <;> omega
          have hml := (ih _ (lt_of_lt_of_le hlt hm)).2.1 b (b.valid_moves p) (d - 1)
            i32min α β p t le_rfl
          have hne : b.valid_moves p ≠ [] := by
            rw [hmx, mover_true] at hpass
            exact hpass
          exact ⟨hml.2.2 hne, hml.1 (by norm_num [i32min])⟩
        · rename_i hmx
          have hlen := valid_moves_length b p.opponent
          have hlt : measL (d - 1) (b.valid_moves p.opponent) < measM b d mx p := by
            simp only [measM, measL]
            split <;> omega
          have hml := (ih _ (lt_of_lt_of_le hlt hm)).2.2 b (b.valid_moves p.opponent) (d - 1)
            i32max α β p t le_rfl
          have hmx' : mx = false := by
            cases mx
            · rfl
            · exact absurd rfl hmx
          have hne : b.valid_moves p.opponent ≠ [] := by
            rw [hmx', mover_false] at hpass
            exact hpass
          exact ⟨hml.1 (by norm_num [i32max]), hml.2.2 hne⟩
  · intro b ms d g α β p t hm
    cases ms with
    | nil =>
      rw [abMax]
      exact ⟨fun h => h, fun h => h, fun h => absurd rfl h⟩
    | cons m rest =>
      simp only [abMax]
      have hltM : measM (b.apply_move p m.1 m.2).2 d false p < measL d (m :: rest) := by
        simp only [measM, measL, List.length_cons]
        split <;> omega
      have he := (ih _ (lt_of_lt_of_le hltM hm)).1 (b.apply_move p m.1 m.2).2 d α β false p t le_rfl
      have hltL : measL d rest < measL d (m :: rest) := by
        simp only [measL, List.length_cons]
        omega
      have ihr := (ih _ (lt_of_lt_of_le hltL hm)).2.1 b rest d
        (max g (minimax (b.apply_move p m.1 m.2).2 d α β false p t))
        (max α (minimax (b.apply_move p m.1 m.2).2 d α β false p t)) β p t le_rfl
      split
      · exact ⟨fun hg => by omega, fun hg => by omega, fun _ => by omega⟩
      · exact ⟨fun hg => ihr.1 (by omega), fun hg => ihr.2.1 (by omega),
          fun _ => ihr.2.1 (by omega)⟩
  · intro b ms d g α β p t hm
    cases ms with
    | nil =>
      rw [abMin]
      exact ⟨fun h => h, fun h => h, fun h => absurd rfl h⟩
    | cons m rest =>
      simp only [abMin]
      have hltM : measM (b.apply_move p.opponent m.1 m.2).2 d true p < measL d (m :: rest) := by
        simp only [measM, measL, List.length_cons]
        split <;> omega
      have he := (ih _ (lt_of_lt_of_le hltM hm)).1 (b.apply_move p.opponent m.1 m.2).2
        d α β true p t le_rfl
      have hltL : measL d rest < measL d (m :: rest) := by
        simp only [measL, List.length_cons]
        omega
      have ihr := (ih _ (lt_of_lt_of_le hltL hm)).2.2 b rest d
        (min g (minimax (b.apply_move p.opponent m.1 m.2).2 d α β true p t)) α
        (min β (minimax (b.apply_move p.opponent m.1 m.2).2 d α β true p t)) p t le_rfl
      split
      · exact ⟨fun hg => by omega, fun hg => by omega, fun _ => by omega⟩
      · exact ⟨fun hg => ihr.1 (by omega), fun hg => ihr.2.1 (by omega),
          fun _ => ihr.2.1 (by omega)⟩

/-- The same value bounds for the unpruned minimax. -/
theorem fullBound : ∀ n : Nat,
    (∀ b d mx p, measM b d mx p ≤ n →
      -2240 ≤ minimaxFull b d mx p ∧ minimaxFull b d mx p ≤ 2240)
    ∧ (∀ b ms d g p, measL d ms ≤ n →
      (g ≤ 2240 → fullMax b ms d g p ≤ 2240)
      ∧ (-2240 ≤ g → -2240 ≤ fullMax b ms d g p)
      ∧ (ms ≠ [] → -2240 ≤ fullMax b ms d g p))
    ∧ (∀ b ms d g p, measL d ms ≤ n →
      (-2240 ≤ g → -2240 ≤ fullMin b ms d g p)
      ∧ (g ≤ 2240 → fullMin b ms d g p ≤ 2240)
      ∧ (ms ≠ [] → fullMin b ms d g p ≤ 2240)) := by
  intro n
  induction n using Nat.strong_induction_on with
  | _ n ih =>
  refine ⟨?_, ?_, ?_⟩
  · intro b d mx p hm
    rw [minimaxFull]
    split
    · exact evaluate_bound b p
    · rename_i hcut
      split
      · rename_i hpass
        have hgo : b.is_game_over = false := by
          cases hbg : b.is_game_over
          · rfl
          · exact absurd (Or.inr hbg) hcut
        have hflip := pass_flip b (mover mx p) hgo hpass
        rw [← mover_not] at hflip
        have hlt : measM b d (!mx) p < measM b d mx p := by
          simp only [measM, if_pos hpass, if_neg hflip]
          omega
        exact (ih (measM b d (!mx) p) (lt_of_lt_of_le hlt hm)).1 b d (!mx) p le_rfl
      · rename_i hpass
        have hd : d ≠ 0 := fun hh => hcut (Or.inl hh)
        split
        · rename_i hmx
          have hlen := valid_moves_length b p
          have hlt : measL (d - 1) (b.valid_moves p) < measM b d mx p := by
            simp only [measM, measL]
            split <;> omega
          have hml := (ih _ (lt_of_lt_of_le hlt hm)).2.1 b (b.valid_moves p) (d - 1)
            i32min p le_rfl
          have hne : b.valid_moves p ≠ [] := by
            rw [hmx, mover_true] at hpass
            exact hpass
          exact ⟨hml.2.2 hne, hml.1 (by norm_num [i32min])⟩
        · rename_i hmx
          have hlen := valid_moves_length b p.opponent
          have hlt : measL (d - 1) (b.valid_moves p.opponent) < measM b d mx p := by
            simp only [measM, measL]
            split <;> omega
          have hml := (ih _ (lt_of_lt_of_le hlt hm)).2.2 b (b.valid_moves p.opponent) (d - 1)
            i32max p le_rfl
          have hmx' : mx = false := by
            cases mx
            · rfl
            · exact absurd rfl hmx
          have hne : b.valid_moves p.opponent ≠ [] := by
            rw [hmx', mover_false] at hpass
            exact hpass
          exact ⟨hml.1 (by norm_num [i32max]), hml.2.2 hne⟩
  · intro b ms d g p hm
    cases ms with
    | nil =>
      rw [fullMax]
      exact ⟨fun h => h, fun h => h, fun h => absurd rfl h⟩
    | cons m rest =>
      simp only [fullMax]
      have hltM : measM (b.apply_move p m.1 m.2).2 d false p < measL d (m :: rest) := by
        simp only [measM, measL, List.length_cons]
        split <;> omega
      have he := (ih _ (lt_of_lt_of_le hltM hm)).1 (b.apply_move p m.1 m.2).2 d false p le_rfl
      have hltL : measL d rest < measL d (m :: rest) := by
        simp only [measL, List.length_cons]
        omega
      have ihr := (ih _ (lt_of_lt_of_le hltL hm)).2.1 b rest d
        (max g (minimaxFull (b.apply_move p m.1 m.2).2 d false p)) p le_rfl
      exact ⟨fun hg => ihr.1 (by omega), fun hg => ihr.2.1 (by omega),
        fun _ => ihr.2.1 (by omega)⟩
  · intro b ms d g p hm
    cases ms with
    | nil =>
      rw [fullMin]
      exact ⟨fun h => h, fun h => h, fun h => absurd rfl h⟩
    | cons m rest =>
      simp only [fullMin]
      have hltM : measM (b.apply_move p.opponent m.1 m.2).2 d true p < measL d (m :: rest) := by
        simp only [measM, measL, List.length_cons]
        split <;> omega
      have he := (ih _ (lt_of_lt_of_le hltM hm)).1 (b.apply_move p.opponent m.1 m.2).2
        d true p le_rfl
      have hltL : measL d rest < measL d (m :: rest) := by
        simp only [measL, List.length_cons]
        omega
      have ihr := (ih _ (lt_of_lt_of_le hltL hm)).2.2 b rest d
        (min g (minimaxFull (b.apply_move p.opponent m.1 m.2).2 d true p)) p le_rfl
      exact ⟨fun hg => ihr.1 (by omega), fun hg => ihr.2.1 (by omega),
        fun _ => ihr.2.1 (by omega)⟩

/-- The Knuth–Moore "linked windows" relation between the pruned and the
unpruned search: inside any window `α < β` the two searches agree after
clamping the result into `[α, β]`.  The pruned folds may fail low (return
something `≤ α`) or fail high (return something `≥ β`), but exactly when
the unpruned value is on the same side of the window. -/
theorem abClamp : ∀ n : Nat,
    (∀ b d α β mx p, measM b d mx p ≤ n → i32min ≤ α → α < β → β ≤ i32max →
      max α (min β (minimax b d α β mx p false)) =
        max α (min β (minimaxFull b d mx p)))
    ∧ (∀ b ms d g α β p, measL d ms ≤ n → i32min ≤ α → α < β → β ≤ i32max →
      i32min ≤ g → g ≤ α →
      max α (min β (abMax b ms d g α β p false)) =
        max α (min β (fullMax b ms d g p)))
    ∧ (∀ b ms d g α β p, measL d ms ≤ n → i32min ≤ α → α < β → β ≤ i32max →
      g ≤ i32max → β ≤ g →
      max α (min β (abMin b ms d g α β p false)) =
        max α (min β (fullMin b ms d g p))) := by
  intro n
  induction n using Nat.strong_induction_on with
  | _ n ih =>
  refine ⟨?_, ?_, ?_⟩
  · intro b d α β mx p hm hα hαβ hβ
    rw [minimax, minimaxFull]
    by_cases hc : d = 0 ∨ b.is_game_over = true
    · rw [dif_pos (by simpa using hc), dif_pos hc]
    · rw [dif_neg (by simpa using hc), dif_neg hc]
      by_cases hp : b.valid_moves (mover mx p) = []
      · rw [dif_pos hp, dif_pos hp]
        have hgo : b.is_game_over = false := by
          cases hbg : b.is_game_over
          · rfl
          · exact absurd (Or.inr hbg) hc
        have hflip := pass_flip b (mover mx p) hgo hp
        rw [← mover_not] at hflip
        have hlt : measM b d (!mx) p < measM b d mx p := by
          simp only [measM, if_pos hp, if_neg hflip]
          omega
        exact (ih _ (lt_of_lt_of_le hlt hm)).1 b d α β (!mx) p le_rfl hα hαβ hβ
      · rw [dif_neg hp, dif_neg hp]
        have hd : d ≠ 0 := fun hh => hc (Or.inl hh)
        by_cases hmx : mx = true
        · rw [if_pos hmx, if_pos hmx]
          have hlen := valid_moves_length b p
          have hlt : measL (d - 1) (b.valid_moves p) < measM b d mx p := by
            simp only [measM, measL]
            split <;> omega
          exact (ih _ (lt_of_lt_of_le hlt hm)).2.1 b (b.valid_moves p) (d - 1)
            i32min α β p le_rfl hα hαβ hβ le_rfl hα
        · rw [if_neg hmx, if_neg hmx]
          have hlen := valid_moves_length b p.opponent
          have hlt : measL (d - 1) (b.valid_moves p.opponent) < measM b d mx p := by
            simp only [measM, measL]
            split <;> omega
          exact (ih _ (lt_of_lt_of_le hlt hm)).2.2 b (b.valid_moves p.opponent) (d - 1)
            i32max α β p le_rfl hα hαβ hβ le_rfl hβ
  · intro b ms d g α β p hm hα hαβ hβ hg1 hg2
    cases ms with
    | nil => rw [abMax, fullMax]
    | cons m rest =>
      simp only [abMax, fullMax]
      have hltM : measM (b.apply_move p m.1 m.2).2 d false p < measL d (m :: rest) := by
        simp only [measM, measL, List.length_cons]
        split <;> omega
      have hltL : measL d rest < measL d (m :: rest) := by
        simp only [measL, List.length_cons]
        omega
      have hcl := (ih _ (lt_of_lt_of_le hltM hm)).1 (b.apply_move p m.1 m.2).2 d α β
        false p le_rfl hα hαβ hβ
      have hbe := (searchBound (measM (b.apply_move p m.1 m.2).2 d false p)).1
        (b.apply_move p m.1 m.2).2 d α β false p false le_rfl
      have hbw := (fullBound (measM (b.apply_move p m.1 m.2).2 d false p)).1
        (b.apply_move p m.1 m.2).2 d false p le_rfl
      set e := minimax (b.apply_move p m.1 m.2).2 d α β false p false with hedef
      set w := minimaxFull (b.apply_move p m.1 m.2).2 d false p with hwdef
      split
      · rename_i hbr
        have hβe : β ≤ e := by omega
        have hβw : β ≤ w := by omega
        have hV : w ≤ fullMax b rest d (max g w) p :=
          le_trans (le_max_right g w) (fullMax_ge b d p rest _)
        set V := fullMax b rest d (max g w) p
        omega
      · rename_i hbr
        by_cases hw : w ≤ α
        · have heα : e ≤ α := by omega
          have hmaxαe : max α e = α := by omega
          rw [hmaxαe]
          have ihr := (ih _ (lt_of_lt_of_le hltL hm)).2.1 b rest d (max g e) α β p
            le_rfl hα hαβ hβ (by omega) (by omega)
          rw [ihr]
          have hge_min : max (max g e) i32min = max g e := by omega
          have hgw_min : max (max g w) i32min = max g w := by omega
          have hN1 : fullMax b rest d (max g e) p
              = max (max g e) (fullMax b rest d i32min p) := by
            conv_lhs => rw [← hge_min]
            exact fullMax_max b d p rest (max g e) i32min
          have hN2 : fullMax b rest d (max g w) p
              = max (max g w) (fullMax b rest d i32min p) := by
            conv_lhs => rw [← hgw_min]
            exact fullMax_max b d p rest (max g w) i32min
          rw [hN1, hN2]
          set N := fullMax b rest d i32min p
          omega
        · have hwβ : w < β := by omega
          have hew : e = w := by omega
          have hge : max g e = w := by omega
          have hαe : max α e = w := by omega
          rw [hge, hαe]
          have ihr := (ih _ (lt_of_lt_of_le hltL hm)).2.1 b rest d w w β p
            le_rfl (by omega) (by omega) hβ (by omega) le_rfl
          have h1 : w ≤ abMax b rest d w w β p false := abMax_ge b d p false rest w w β
          have h2 : w ≤ fullMax b rest d w p := fullMax_ge b d p rest w
          have hgw : max g w = w := by omega
          rw [hgw]
          set A := abMax b rest d w w β p false
          set F := fullMax b rest d w p
          omega
  · intro b ms d g α β p hm hα hαβ hβ hg1 hg2
    cases ms with
    | nil => rw [abMin, fullMin]
    | cons m rest =>
      simp only [abMin, fullMin]
      have hltM : measM (b.apply_move p.opponent m.1 m.2).2 d true p
          < measL d (m :: rest) := by
        simp only [measM, measL, List.length_cons]
        split <;> omega
      have hltL : measL d rest < measL d (m :: rest) := by
        simp only [measL, List.length_cons]
        omega
      have hcl := (ih _ (lt_of_lt_of_le hltM hm)).1 (b.apply_move p.opponent m.1 m.2).2 d α β
        true p le_rfl hα hαβ hβ
      have hbe := (searchBound (measM (b.apply_move p.opponent m.1 m.2).2 d true p)).1
        (b.apply_move p.opponent m.1 m.2).2 d α β true p false le_rfl
      have hbw := (fullBound (measM (b.apply_move p.opponent m.1 m.2).2 d true p)).1
        (b.apply_move p.opponent m.1 m.2).2 d true p le_rfl
      set e := minimax (b.apply_move p.opponent m.1 m.2).2 d α β true p false with hedef
      set w := minimaxFull (b.apply_move p.opponent m.1 m.2).2 d true p with hwdef
      split
      · rename_i hbr
        have hαe : e ≤ α := by omega
        have hαw : w ≤ α := by omega
        have hV : fullMin b rest d (min g w) p ≤ w :=
          le_trans (fullMin_le b d p rest _) (min_le_right g w)
        set V := fullMin b rest d (min g w) p
        omega
      · rename_i hbr
        by_cases hw : β ≤ w
        · have heβ : β ≤ e := by omega
          have hminβe : min β e = β := by omega
          rw [hminβe]
          have ihr := (ih _ (lt_of_lt_of_le hltL hm)).2.2 b rest d (min g e) α β p
            le_rfl hα hαβ hβ (by omega) (by omega)
          rw [ihr]
          have hge_max : min (min g e) i32max = min g e := by omega
          have hgw_max : min (min g w) i32max = min g w := by omega
          have hN1 : fullMin b rest d (min g e) p
              = min (min g e) (fullMin b rest d i32max p) := by
            conv_lhs => rw [← hge_max]
            exact fullMin_min b d p rest (min g e) i32max
          have hN2 : fullMin b rest d (min g w) p
              = min (min g w) (fullMin b rest d i32max p) := by
            conv_lhs => rw [← hgw_max]
            exact fullMin_min b d p rest (min g w) i32max
          rw [hN1, hN2]
          set N := fullMin b rest d i32max p
          omega
        · have hαw' : α < w := by omega
          have hew : e = w := by omega
          have hge : min g e = w := by omega
          have hβe : min β e = w := by omega
          rw [hge, hβe]
          have ihr := (ih _ (lt_of_lt_of_le hltL hm)).2.2 b rest d w α w p
            le_rfl hα (by omega) (by omega) (by omega) le_rfl
          have h1 : abMin b rest d w α w p false ≤ w := abMin_le b d p false rest w α w
          have h2 : fullMin b rest d w p ≤ w := fullMin_le b d p rest w
          have hgw : min g w = w := by omega
          rw [hgw]
          set A := abMin b rest d w α w p false
          set F := fullMin b rest d w p
          omega

/-! ### Pruning does not change the root values (C1) -/

/-- At the root window `(i32::MIN, i32::MAX)` the pruned search returns the
exact unpruned minimax value: both values lie within the evaluation range,
so the clamp of `abClamp` is the identity on them. -/
theorem minimax_root_eq (b : Board) (d : Nat) (p : Piece) :
    minimax b d i32min i32max false p false = minimaxFull b d false p := by
  have h := (abClamp (measM b d false p)).1 b d i32min i32max false p le_rfl le_rfl
    (by norm_num [i32min, i32max]) le_rfl
  have h1 := (searchBound (measM b d false p)).1 b d i32min i32max false p false le_rfl
  have h2 := (fullBound (measM b d false p)).1 b d false p le_rfl
  have e1 : i32min = -2147483648 := rfl
  have e2 : i32max = 2147483647 := rfl
  rw [e1, e2] at h h1 ⊢
  omega

theorem scanMoves_eq (b : Board) (p : Piece) (d : Nat) :
    ∀ (ms : List (Fin 8 × Fin 8)) (st : Option (Fin 8 × Fin 8) × Int),
      scanMoves b p false d ms st = scanMovesFull b p d ms st := by
  intro ms
  induction ms with
  | nil => intro st; rfl
  | cons m rest ih =>
    intro st
    simp [scanMoves, scanMovesFull, minimax_root_eq, ih]

theorem scanDepths_eq (b : Board) (p : Piece) (moves : List (Fin 8 × Fin 8)) :
    ∀ (ds : List Nat) (st : Option (Fin 8 × Fin 8) × Int),
      scanDepths b p false moves ds st = scanDepthsFull b p moves ds st := by
  intro ds
  induction ds with
  | nil => intro st; rfl
  | cons dd rest ih =>
    intro st
    simp [scanDepths, scanDepthsFull, scanMoves_eq, ih]

/-- C1: with the deadline never reached, the iterative-deepening driver fed
by the alpha-beta search chooses exactly the move the same driver fed by the
unpruned full minimax chooses — same board, same depths, same move order,
same first-seen-wins tie-breaking. -/
theorem get_best_move_pruning_equiv (b : Board) (p : Piece) (max_depth : Nat) :
    get_best_move b p false max_depth = get_best_move_full b p max_depth := by
  unfold get_best_move get_best_move_full
  by_cases h : b.valid_moves p = []
  · simp [h]
  · simp [h, scanDepths_eq]

/-! ### Degenerate time budget (C9) and the no-move contract (C8) -/

/-- With the deadline already expired, every call of `minimax` returns the
static evaluation at once (the top-of-call cutoff). -/
theorem minimax_timeout (b : Board) (d : Nat) (α β : Int) (mx : Bool) (p : Piece) :
    minimax b d α β mx p true = b.evaluate p := by
  rw [minimax, dif_pos (Or.inr (Or.inr rfl))]

theorem scanMoves_keeps_some (b : Board) (p : Piece) (t : Bool) (d : Nat)
    (M : List (Fin 8 × Fin 8)) :
    ∀ (ms : List (Fin 8 × Fin 8)) (st : Option (Fin 8 × Fin 8) × Int)
      (x : Fin 8 × Fin 8), st.1 = some x → x ∈ M → (∀ m' ∈ ms, m' ∈ M) →
      ∃ y, (scanMoves b p t d ms st).1 = some y ∧ y ∈ M := by
  intro ms
  induction ms with
  | nil => intro st x h1 h2 _; exact ⟨x, h1, h2⟩
  | cons m rest ih =>
    intro st x h1 h2 hms
    simp only [scanMoves]
    by_cases hlt : st.2 < minimax (b.apply_move p m.1 m.2).2 (d - 1) i32min i32max false p t
    · rw [if_pos hlt]
      by_cases ht : t = true
      · rw [if_pos ht]
        exact ⟨m, rfl, hms m (List.mem_cons_self _ _)⟩
      · rw [if_neg ht]
        exact ih _ m rfl (hms m (List.mem_cons_self _ _))
          fun y hy => hms y (List.mem_cons_of_mem _ hy)
    · rw [if_neg hlt]
      by_cases ht : t = true
      · rw [if_pos ht]
        exact ⟨x, h1, h2⟩
      · rw [if_neg ht]
        exact ih st x h1 h2 fun y hy => hms y (List.mem_cons_of_mem _ hy)

theorem scanMoves_starts (b : Board) (p : Piece) (t : Bool) (d : Nat)
    (M : List (Fin 8 × Fin 8)) (m : Fin 8 × Fin 8) (rest : List (Fin 8 × Fin 8))
    (st : Option (Fin 8 × Fin 8) × Int) (hst : st.2 = i32min)
    (hm : m ∈ M) (hrest : ∀ m' ∈ rest, m' ∈ M) :
    ∃ y, (scanMoves b p t d (m :: rest) st).1 = some y ∧ y ∈ M := by
  simp only [scanMoves]
  have hsc : st.2 < minimax (b.apply_move p m.1 m.2).2 (d - 1) i32min i32max false p t := by
    rw [hst]
    have hb := ((searchBound (measM (b.apply_move p m.1 m.2).2 (d - 1) false p)).1
      (b.apply_move p m.1 m.2).2 (d - 1) i32min i32max false p t le_rfl).1
    have e1 : i32min = -2147483648 := rfl
    rw [e1] at hb ⊢
    omega
  rw [if_pos hsc]
  by_cases ht : t = true
  · rw [if_pos ht]
    exact ⟨m, rfl, hm⟩
  · rw [if_neg ht]
    exact scanMoves_keeps_some b p t d M rest _ m rfl hm hrest

theorem scanDepths_keeps_some (b : Board) (p : Piece) (t : Bool)
    (moves M : List (Fin 8 × Fin 8)) (hmv : ∀ m' ∈ moves, m' ∈ M) :
    ∀ (ds : List Nat) (st : Option (Fin 8 × Fin 8) × Int) (x : Fin 8 × Fin 8),
      st.1 = some x → x ∈ M →
      ∃ y, (scanDepths b p t moves ds st).1 = some y ∧ y ∈ M := by
  intro ds
  induction ds with
  | nil => exact fun st x h1 h2 => ⟨x, h1, h2⟩
  | cons dd rest ih =>
    intro st x h1 h2
    simp only [scanDepths]
    obtain ⟨y, hy1, hy2⟩ := scanMoves_keeps_some b p t dd M moves st x h1 h2 hmv
    by_cases ht : t = true
    · rw [if_pos ht]
      exact ⟨y, hy1, hy2⟩
    · rw [if_neg ht]
      exact ih _ y hy1 hy2

/-- C8: for every board, side, deadline-poll outcome and `max_depth ≥ 1`,
`get_best_move` returns `none` exactly when the side has no legal move;
otherwise the first root move is evaluated and recorded before any break,
so the result is a legal move. -/
theorem get_best_move_none_iff (b : Board) (p : Piece) (t : Bool) (maxd : Nat)
    (h : 1 ≤ maxd) :
    match get_best_move b p t maxd with
    | none => b.valid_moves p = []
    | some m => m ∈ b.valid_moves p := by
  rcases hms : b.valid_moves p with _ | ⟨m, rest⟩
  · simp [get_best_move, hms]
  · obtain ⟨k, rfl⟩ : ∃ k, maxd = k + 1 := ⟨maxd - 1, by omega⟩
    have hrange : List.range' 1 (k + 1) = 1 :: List.range' 2 k := List.range'_succ _ _ _
    simp only [get_best_move, hms, hrange]
    rw [if_neg (by simp)]
    simp only [scanDepths]
    obtain ⟨y, hy1, hy2⟩ := scanMoves_starts b p t 1 (m :: rest) m rest (none, i32min)
      rfl (List.mem_cons_self _ _) (fun y hy => List.mem_cons_of_mem _ hy)
    by_cases ht : t = true
    · rw [if_pos ht, hy1]
      exact hy2
    · rw [if_neg ht]
      obtain ⟨z, hz1, hz2⟩ := scanDepths_keeps_some b p t (m :: rest) (m :: rest)
        (fun y hy => hy) (List.range' 2 k) _ y hy1 hy2
      rw [hz1]
      exact hz2

theorem get_best_move_none_iff_closed :
    1 ≤ 1 ∧
      (match get_best_move Board.new Piece.Black true 1 with
        | none => Board.new.valid_moves Piece.Black = []
        | some m => m ∈ Board.new.valid_moves Piece.Black) :=
  ⟨le_rfl, get_best_move_none_iff Board.new Piece.Black true 1 le_rfl⟩

/-- C9: with the deadline already expired at the start (`time_limit = 0`),
the driver evaluates exactly one root move — whose `minimax` call returns
the depth-0 static evaluation at once — records it, and aborts both loops:
the result is the first legal move, or `none` when there is none. -/
theorem get_best_move_timeout (b : Board) (p : Piece) (maxd : Nat)
    (h : 1 ≤ maxd) :
    get_best_move b p true maxd = (b.valid_moves p).head? := by
  rcases hms : b.valid_moves p with _ | ⟨m, rest⟩
  · simp [get_best_move, hms]
  · obtain ⟨k, rfl⟩ : ∃ k, maxd = k + 1 := ⟨maxd - 1, by omega⟩
    have hrange : List.range' 1 (k + 1) = 1 :: List.range' 2 k := List.range'_succ _ _ _
    simp only [get_best_move, hms, hrange]
    rw [if_neg (by simp)]
    simp only [scanDepths, scanMoves, minimax_timeout]
    have hsc : ((none : Option (Fin 8 × Fin 8)), i32min).2
        < ((b.apply_move p m.1 m.2).2).evaluate p := by
      have hb := (evaluate_bound (b.apply_move p m.1 m.2).2 p).1
      have e1 : i32min = -2147483648 := rfl
      simp only [e1]
      omega
    rw [if_pos hsc]
    simp

theorem get_best_move_timeout_closed :
    1 ≤ 1 ∧
      get_best_move Board.new Piece.Black true 1
        = (Board.new.valid_moves Piece.Black).head? :=
  ⟨le_rfl, get_best_move_timeout Board.new Piece.Black 1 le_rfl⟩

/-! ### Termination of the recursion (C10) -/

/-- C10: whenever the pass branch of `minimax` fires (no cutoff, the side to
move has no legal move), the call reduces to the same-depth call with the
maximizing flag flipped, and the side to move of that recursive call *does*
have a legal move — so the flipped call immediately descends into the
depth-decreasing expansion and two consecutive passes are impossible.  (The
same argument is the `measM` well-founded measure that defines `minimax` in
this development without any `partial` escape hatch.) -/
theorem minimax_pass_step (b : Board) (d : Nat) (α β : Int) (mx : Bool)
    (p : Piece) (t : Bool)
    (h1 : ¬(d = 0 ∨ b.is_game_over = true ∨ t = true))
    (h2 : b.valid_moves (mover mx p) = []) :
    minimax b d α β mx p t = minimax b d α β (!mx) p t
      ∧ b.valid_moves (mover (!mx) p) ≠ [] := by
  constructor
  · conv_lhs => rw [minimax]
    rw [dif_neg h1, dif_pos h2]
  · have hgo : b.is_game_over = false := by
      cases hbg : b.is_game_over
      · rfl
      · exact absurd (Or.inr (Or.inl hbg)) h1
    rw [mover_not]
    exact pass_flip b (mover mx p) hgo h2

theorem minimax_pass_step_closed :
    ¬((1 : Nat) = 0 ∨ passBoard.is_game_over = true ∨ (false : Bool) = true) ∧
    passBoard.valid_moves (mover true Piece.Black) = [] ∧
    (minimax passBoard 1 i32min i32max true Piece.Black false
        = minimax passBoard 1 i32min i32max false Piece.Black false
      ∧ passBoard.valid_moves (mover false Piece.Black) ≠ []) :=
  ⟨by decide, by decide,
    minimax_pass_step passBoard 1 i32min i32max true Piece.Black false
      (by decide) (by decide)⟩

end Reversi
